import Mathlib

/-!
Verification of the Pruner subsystem (storage/aptosdb/src/pruner) and the
gas-bound check of the Aptos VM (aptos-move/aptos-vm/src/aptos_vm_impl.rs).

The pruner's Worker, front door and sub-pruners are modelled from the
specification (their implementation files are not among the given sources;
only their test, storage/aptosdb/src/pruner/state_store/test.rs, is).
`check_gas` is embedded directly from aptos_vm_impl.rs.
-/

namespace Pruner

/- Versions (`type Version = u64` in the source) are carried as `Nat`:
pruning arithmetic only compares and saturating-subtracts, so `Nat` with
truncated subtraction is a faithful carrier. -/

/-- State keys; the test uses raw byte strings (`StateKey::Raw`). -/
abbrev StateKey := String

/-- State values; the test uses byte-string values. -/
abbrev StateValue := String

/-- One committed write: (version, key, value). -/
abbrev Write := Nat × StateKey × StateValue

/-- Keep the later-versioned of a previous best read result and a new
candidate write; ties keep the previous candidate. -/
def pickLater (r : Option (Nat × StateValue)) (u : Nat) (val : StateValue) :
    Option (Nat × StateValue) :=
  match r with
  | none => some (u, val)
  | some (u', val') => if u < u' then some (u', val') else some (u, val)

/-- The write to key `k` with the greatest version `≤ v` (the value visible
at version `v`).  This is the read primitive behind
`StateStore::get_value_with_proof_by_version`. -/
def latestWrite (k : StateKey) (v : Nat) : List Write → Option (Nat × StateValue)
  | [] => none
  | (u, k', val) :: rest =>
    if u ≤ v ∧ k' = k then pickLater (latestWrite k v rest) u val
    else latestWrite k v rest

/-- Modelled from the spec: the versioned state store as the sub-pruners see
it — the multiset of committed writes still physically present, plus the
pruner watermark below which reads fail (spec §3 "Retained range invariant",
§4.3 state-store policy). -/
structure StateStore where
  writes : List Write
  watermark : Nat
deriving Repr, DecidableEq

/-- A write is stale before watermark `W` when some later write to the same
key exists at a version `≤ W`: its value is fully superseded before `W`
(spec §4.3: "only values fully superseded before the new watermark are
removed"). -/
def staleBefore (ws : List Write) (e : Write) (W : Nat) : Bool :=
  ws.any fun e' => e'.2.1 == e.2.1 && decide (e.1 < e'.1) && decide (e'.1 ≤ W)

/-- Modelled from the spec: one atomic pruning commit — delete every value
fully superseded before `W` and advance the watermark, as a single state
transition (spec §4.3: deletions and watermark update commit atomically). -/
def StateStore.pruneTo (s : StateStore) (W : Nat) : StateStore :=
  ⟨s.writes.filter (fun e => !staleBefore s.writes e W), max s.watermark W⟩

/-- Modelled from the spec: reading key `k` at version `v`.  `none` models a
read error (version pruned away); `some o` models a successful read whose
optional payload is the value visible at `v` (spec §8: versions below
`progress` are unreadable, versions at or above read their original value). -/
def StateStore.get (s : StateStore) (k : StateKey) (v : Nat) : Option (Option StateValue) :=
  if v < s.watermark then none
  else some ((latestWrite k v s.writes).map Prod.snd)

/-- Well-formedness of a write list: at most one value per (version, key),
as `put_value_sets` writes one value per key per version. -/
abbrev WF (ws : List Write) : Prop := (ws.map fun e => (e.1, e.2.1)).Nodup

/-- `s` is a correctly pruned residue of the ground-truth history `ws0`:
it holds only committed writes, and it still holds every write not fully
superseded before its watermark. -/
abbrev Consistent (ws0 : List Write) (s : StateStore) : Prop :=
  s.writes ⊆ ws0 ∧ ∀ e ∈ ws0, staleBefore ws0 e s.watermark = false → e ∈ s.writes

theorem pickLater_ne_none (r : Option (Nat × StateValue)) (u : Nat) (val : StateValue) :
    pickLater r u val ≠ none := by
  cases r with
  | none => simp [pickLater]
  | some p =>
    obtain ⟨u', val'⟩ := p
    simp only [pickLater]
    split <;> simp

theorem pickLater_eq_some (r : Option (Nat × StateValue)) (u u2 : Nat)
    (val val2 : StateValue) (h : pickLater r u val = some (u2, val2)) :
    (u2 = u ∧ val2 = val) ∨ r = some (u2, val2) := by
  cases r with
  | none =>
    simp [pickLater] at h
    exact Or.inl ⟨h.1.symm, h.2.symm⟩
  | some p =>
    obtain ⟨u', val'⟩ := p
    simp only [pickLater] at h
    split at h
    · exact Or.inr h
    · simp at h
      exact Or.inl ⟨h.1.symm, h.2.symm⟩

theorem pickLater_ge (r : Option (Nat × StateValue)) (u u2 : Nat)
    (val val2 : StateValue) (h : pickLater r u val = some (u2, val2)) :
    u ≤ u2 ∧ ∀ u' val', r = some (u', val') → u' ≤ u2 := by
  cases r with
  | none =>
    simp [pickLater] at h
    obtain ⟨h1, h2⟩ := h
    subst h1
    exact ⟨le_refl _, fun u' val' hr => by cases hr⟩
  | some p =>
    obtain ⟨u', val'⟩ := p
    simp only [pickLater] at h
    by_cases hlt : u < u'
    · rw [if_pos hlt] at h
      simp at h
      obtain ⟨h1, h2⟩ := h
      subst h1
      constructor
      · exact Nat.le_of_lt hlt
      · intro a b hab
        simp at hab
        obtain ⟨e1, e2⟩ := hab
        omega
    · rw [if_neg hlt] at h
      simp at h
      obtain ⟨h1, h2⟩ := h
      subst h1
      constructor
      · exact le_refl _
      · intro a b hab
        simp at hab
        obtain ⟨e1, e2⟩ := hab
        omega

theorem latestWrite_none_iff (k : StateKey) (v : Nat) (ws : List Write) :
    latestWrite k v ws = none ↔ ∀ e ∈ ws, ¬(e.1 ≤ v ∧ e.2.1 = k) := by
  induction ws with
  | nil => simp [latestWrite]
  | cons e0 rest ih =>
    obtain ⟨u0, k0, val0⟩ := e0
    simp only [latestWrite]
    by_cases hc : u0 ≤ v ∧ k0 = k
    · rw [if_pos hc]
      constructor
      · intro h
        exact absurd h (pickLater_ne_none _ _ _)
      · intro h
        exact absurd hc (h (u0, k0, val0) (List.mem_cons_self _ _))
    · rw [if_neg hc]
      rw [ih]
      constructor
      · intro h e he
        rcases List.mem_cons.mp he with h3 | h3
        · subst h3; exact hc
        · exact h e h3
      · intro h e he
        exact h e (List.mem_cons_of_mem _ he)

theorem latestWrite_mem (k : StateKey) (v : Nat) (ws : List Write)
    (u : Nat) (val : StateValue) (h : latestWrite k v ws = some (u, val)) :
    (u, k, val) ∈ ws ∧ u ≤ v := by
  induction ws generalizing u val with
  | nil => simp [latestWrite] at h
  | cons e0 rest ih =>
    obtain ⟨u0, k0, val0⟩ := e0
    simp only [latestWrite] at h
    by_cases hc : u0 ≤ v ∧ k0 = k
    · rw [if_pos hc] at h
      rcases pickLater_eq_some _ _ _ _ _ h with ⟨h1, h2⟩ | hr
      · subst h1; subst h2
        exact ⟨by simp [hc.2], hc.1⟩
      · have := ih u val hr
        exact ⟨List.mem_cons_of_mem _ this.1, this.2⟩
    · rw [if_neg hc] at h
      have := ih u val h
      exact ⟨List.mem_cons_of_mem _ this.1, this.2⟩

theorem latestWrite_max (k : StateKey) (v : Nat) (ws : List Write)
    (u : Nat) (val : StateValue) (h : latestWrite k v ws = some (u, val)) :
    ∀ e ∈ ws, e.2.1 = k → e.1 ≤ v → e.1 ≤ u := by
  induction ws generalizing u val with
  | nil => simp
  | cons e0 rest ih =>
    obtain ⟨u0, k0, val0⟩ := e0
    intro e he hk hle
    simp only [latestWrite] at h
    by_cases hc : u0 ≤ v ∧ k0 = k
    · rw [if_pos hc] at h
      have hge := pickLater_ge _ _ _ _ _ h
      rcases List.mem_cons.mp he with h3 | h3
      · subst h3; exact hge.1
      · cases hr : latestWrite k v rest with
        | none => exact absurd ⟨hle, hk⟩ ((latestWrite_none_iff k v rest).mp hr e h3)
        | some p =>
          obtain ⟨u', val'⟩ := p
          exact le_trans (ih u' val' hr e h3 hk hle) (hge.2 u' val' hr)
    · rw [if_neg hc] at h
      rcases List.mem_cons.mp he with h3 | h3
      · exfalso
        subst h3
        exact hc ⟨hle, hk⟩
      · exact ih u val h e h3 hk hle

theorem WF_unique (ws0 : List Write) (hwf : WF ws0) (u : Nat) (k : StateKey)
    (a b : StateValue) (ha : (u, k, a) ∈ ws0) (hb : (u, k, b) ∈ ws0) : a = b := by
  have := List.inj_on_of_nodup_map hwf ha hb rfl
  exact (Prod.ext_iff.mp (Prod.ext_iff.mp this).2).2

theorem staleBefore_iff (ws : List Write) (e : Write) (W : Nat) :
    staleBefore ws e W = true ↔ ∃ e' ∈ ws, e'.2.1 = e.2.1 ∧ e.1 < e'.1 ∧ e'.1 ≤ W := by
  simp only [staleBefore, List.any_eq_true, Bool.and_eq_true, beq_iff_eq, decide_eq_true_eq]
  constructor
  · rintro ⟨e', he', ⟨⟨h1, h2⟩, h3⟩⟩
    exact ⟨e', he', h1, h2, h3⟩
  · rintro ⟨e', he', h1, h2, h3⟩
    exact ⟨e', he', ⟨⟨h1, h2⟩, h3⟩⟩

theorem staleBefore_mono_W (ws : List Write) (e : Write) (W W' : Nat) (hW : W ≤ W')
    (h : staleBefore ws e W = true) : staleBefore ws e W' = true := by
  rw [staleBefore_iff] at h ⊢
  obtain ⟨e', he', h1, h2, h3⟩ := h
  exact ⟨e', he', h1, h2, le_trans h3 hW⟩

theorem staleBefore_mono_sub (ws ws' : List Write) (e : Write) (W : Nat)
    (hsub : ws ⊆ ws') (h : staleBefore ws e W = true) : staleBefore ws' e W = true := by
  rw [staleBefore_iff] at h ⊢
  obtain ⟨e', he', h1, h2, h3⟩ := h
  exact ⟨e', hsub he', h1, h2, h3⟩

/-- One atomic pruning commit preserves consistency with the ground-truth
history: it deletes only stale values, so every value not fully superseded
below the (possibly advanced) watermark survives. -/
theorem Consistent.pruneTo (ws0 : List Write) (s : StateStore) (W : Nat)
    (hcon : Consistent ws0 s) : Consistent ws0 (s.pruneTo W) := by
  obtain ⟨hsub, hkeep⟩ := hcon
  constructor
  · intro e he
    have := List.mem_filter.mp he
    exact hsub this.1
  · intro e he hns
    simp only [StateStore.pruneTo] at hns ⊢
    have hwm : staleBefore ws0 e s.watermark = false := by
      by_contra hcontra
      have : staleBefore ws0 e s.watermark = true := by
        revert hcontra
        cases staleBefore ws0 e s.watermark <;> simp
      have := staleBefore_mono_W ws0 e s.watermark (max s.watermark W) (le_max_left _ _) this
      rw [this] at hns
      cases hns
    refine List.mem_filter.mpr ⟨hkeep e he hwm, ?_⟩
    rw [Bool.not_eq_true']
    by_contra hcontra
    have hst : staleBefore s.writes e W = true := by
      revert hcontra
      cases staleBefore s.writes e W <;> simp
    have := staleBefore_mono_sub s.writes ws0 e W hsub hst
    have := staleBefore_mono_W ws0 e W (max s.watermark W) (le_max_right _ _) this
    rw [this] at hns
    cases hns

/-- Reads at or above the watermark of a consistent pruned store agree with
reads against the full committed history. -/
theorem latestWrite_consistent (ws0 : List Write) (s : StateStore) (hwf : WF ws0)
    (hcon : Consistent ws0 s) (k : StateKey) (v : Nat) (hv : s.watermark ≤ v) :
    latestWrite k v s.writes = latestWrite k v ws0 := by
  cases h0 : latestWrite k v ws0 with
  | none =>
    rw [latestWrite_none_iff]
    intro e he
    exact (latestWrite_none_iff k v ws0).mp h0 e (hcon.1 he)
  | some p =>
    obtain ⟨u, val⟩ := p
    have hmem := latestWrite_mem k v ws0 u val h0
    have hmax := latestWrite_max k v ws0 u val h0
    have hnstale : staleBefore ws0 (u, k, val) s.watermark = false := by
      rw [Bool.eq_false_iff]
      intro hst
      obtain ⟨e', he', h1, h2, h3⟩ := (staleBefore_iff _ _ _).mp hst
      have := hmax e' he' h1 (le_trans h3 hv)
      omega
    have hin : (u, k, val) ∈ s.writes := hcon.2 _ hmem.1 hnstale
    cases h1 : latestWrite k v s.writes with
    | none =>
      exact absurd ⟨hmem.2, rfl⟩ ((latestWrite_none_iff k v s.writes).mp h1 (u, k, val) hin)
    | some q =>
      obtain ⟨u2, val2⟩ := q
      have hmem2 := latestWrite_mem k v s.writes u2 val2 h1
      have hle1 : u2 ≤ u := hmax (u2, k, val2) (hcon.1 hmem2.1) rfl hmem2.2
      have hle2 : u ≤ u2 := latestWrite_max k v s.writes u2 val2 h1 (u, k, val) hin rfl hmem.2
      have hu : u2 = u := le_antisymm hle1 hle2
      subst hu
      have hval : val2 = val := WF_unique ws0 hwf u2 k val2 val (hcon.1 hmem2.1) hmem.1
      rw [hval]

/-- Modelled from the spec: Worker commands (spec §3 "Command", constructed
by the test as `Command::Prune { target_db_versions }` and `Command::Quit`). -/
inductive Command
  | prune (target_db_versions : List Nat)
  | quit
deriving Repr, DecidableEq

def Command.isQuit : Command → Bool
  | .quit => true
  | .prune _ => false

/-- Result of running the batches of one sub-pruner: the store and progress
reached, the unconsumed commit oracle, and the recorded error if a batch
commit failed. -/
structure BatchResult where
  store : StateStore
  progress : Nat
  oracle : List Bool
  err : Option String
deriving Repr, DecidableEq

/-- Modelled from the spec: run one sub-pruner's batches until its target is
reached (spec §4.2 "Executing a Prune": while progress < target, prune one
batch of at most the per-batch cap of versions, committing the deletions and
the watermark atomically, then advance progress).  `oracle` injects the
outcome of each batch commit: `false` is a persistence error (that batch is
not applied), `true` — or an exhausted oracle — is success. -/
def pruneBatchesGo (cap : Nat) : Nat → StateStore → Nat → Nat → List Bool → BatchResult
  | 0, s, p, _t, o => ⟨s, p, o, none⟩
  | fuel + 1, s, p, t, [] =>
    if p < t ∧ 0 < cap then
      pruneBatchesGo cap fuel (s.pruneTo (min t (p + cap))) (min t (p + cap)) t []
    else ⟨s, p, [], none⟩
  | fuel + 1, s, p, t, true :: rest =>
    if p < t ∧ 0 < cap then
      pruneBatchesGo cap fuel (s.pruneTo (min t (p + cap))) (min t (p + cap)) t rest
    else ⟨s, p, true :: rest, none⟩
  | fuel + 1, s, p, t, false :: rest =>
    if p < t ∧ 0 < cap then ⟨s, p, rest, some "persistence error while committing batch"⟩
    else ⟨s, p, false :: rest, none⟩

def pruneBatches (cap : Nat) (s : StateStore) (progress target : Nat)
    (oracle : List Bool) : BatchResult :=
  pruneBatchesGo cap (target - progress) s progress target oracle

/-- Result of executing one `Prune` command across all sub-pruners. -/
structure ExecResult where
  pairs : List (StateStore × Nat)
  oracle : List Bool
  err : Option String
deriving Repr, DecidableEq

/-- Modelled from the spec: execute a `Prune{target_versions}` command — for
each sub-pruner in canonical order, run batches until its target is reached;
a persistence error aborts the remainder of the command (spec §4.2 "Failure
handling") while sub-pruners already advanced keep their progress. -/
def execPrune (cap : Nat) : List (StateStore × Nat) → List Nat → List Bool → ExecResult
  | [], _, o => ⟨[], o, none⟩
  | sp :: rest, ts, o =>
    let r := pruneBatches cap sp.1 sp.2 (ts.headD 0) o
    match r.err with
    | some e => ⟨(r.store, r.progress) :: rest, r.oracle, some e⟩
    | none =>
      let r2 := execPrune cap rest ts.tail r.oracle
      ⟨(r.store, r.progress) :: r2.pairs, r2.oracle, r2.err⟩

/-- Modelled from the spec: the Worker's owned state — one store per
sub-pruner, the shared progress table, and the per-batch cap (the `100`
passed as `Worker::new`'s last argument in the test). -/
structure WorkerState where
  stores : List StateStore
  progress : List Nat
  max_version_to_prune_per_batch : Nat
deriving Repr, DecidableEq

/-- Terminal or running status of the Worker loop (spec §4.2: `Running →
Stopped(Ok)` or `Running → Stopped(Err)`). -/
inductive WorkerStatus
  | running
  | stoppedOk
  | stoppedErr (e : String)
deriving Repr, DecidableEq

/-- Modelled from the spec: the Worker loop over the commands currently in
its queue (spec §4.2).  A `Quit` at the head stops with `Stopped(Ok)`;
before acting on a `Prune` the Worker drains the rest of the queue and, if a
`Quit` is anywhere among the drained commands, discards every drained
command — including the current `Prune` — and stops with `Stopped(Ok)`;
otherwise it executes the `Prune` to completion, stopping with
`Stopped(Err)` if a batch commit fails.  An empty queue leaves the Worker
`running` (blocked on its channel). -/
def WorkerState.work : WorkerState → List Command → List Bool → WorkerState × List Bool × WorkerStatus
  | w, [], o => (w, o, .running)
  | w, .quit :: _, o => (w, o, .stoppedOk)
  | w, .prune ts :: rest, o =>
    if rest.any Command.isQuit then (w, o, .stoppedOk)
    else
      let r := execPrune w.max_version_to_prune_per_batch (w.stores.zip w.progress) ts o
      let w' : WorkerState :=
        ⟨r.pairs.map Prod.fst, r.pairs.map Prod.snd, w.max_version_to_prune_per_batch⟩
      match r.err with
      | some e => (w', r.oracle, .stoppedErr e)
      | none => WorkerState.work w' rest r.oracle

/-- Modelled from the spec: the sub-pruner enumeration (spec §3); the
ordinal position doubles as the index into the progress table and into the
target-version vector.  The test refers to the state store's variant as
`PrunerIndex::StateStorePrunerIndex`. -/
inductive PrunerIndex
  | LedgerPruner
  | TransactionStorePruner
  | EventStorePruner
  | StateStorePruner
deriving Repr, DecidableEq

/-- The ordinal of a `PrunerIndex` (its `as usize` value in the spec's
declaration order). -/
def PrunerIndex.toIndex : PrunerIndex → Nat
  | .LedgerPruner => 0
  | .TransactionStorePruner => 1
  | .EventStorePruner => 2
  | .StateStorePruner => 3

/-- All `PrunerIndex` variants in declaration order. -/
def allPrunerIndices : List PrunerIndex :=
  [.LedgerPruner, .TransactionStorePruner, .EventStorePruner, .StateStorePruner]

/-- The configuration struct exactly as the test constructs it (test.rs
lines 60–64): `state_store_prune_window: Some(0), default_prune_window:
Some(0), max_version_to_prune_per_batch: Some(100)`.  A `None` window
disables pruning for the corresponding store. -/
structure StoragePrunerConfig where
  state_store_prune_window : Option Nat
  default_prune_window : Option Nat
  max_version_to_prune_per_batch : Option Nat
deriving Repr, DecidableEq

/-- Modelled from the spec: the per-index retention window — the state
store has its own window, the other stores share the default (spec §3, §6). -/
def prune_window (cfg : StoragePrunerConfig) : PrunerIndex → Option Nat
  | .StateStorePruner => cfg.state_store_prune_window
  | _ => cfg.default_prune_window

/-- Modelled from the spec: the combined `Prune` command's target vector —
every index's window-adjusted target, computed with saturating subtraction;
a disabled window contributes the index's current progress, a no-op for
that store (spec §4.1). -/
def combinedTargets (cfg : StoragePrunerConfig) (progress : List Nat) (latest : Nat) :
    List Nat :=
  allPrunerIndices.map fun i =>
    match prune_window cfg i with
    | none => progress.getD i.toIndex 0
    | some w => latest - w

/-- Modelled from the spec: the front door's state — the configuration, the
Worker it owns (stepped synchronously here in place of the command queue
and background thread), the unconsumed commit oracle, and the recorded
fatal error of a stopped Worker. -/
structure PrunerState where
  config : StoragePrunerConfig
  worker : WorkerState
  oracle : List Bool
  stored_error : Option String
deriving Repr, DecidableEq

/-- Modelled from the spec: `Pruner::wake_and_wait(latest_version, index)`
(spec §4.1): if a fatal error is recorded, return it; a disabled window is
a no-op; if `target ≤ progress[index]`, return immediately; otherwise build
one combined `Prune` command and block until the Worker has processed it —
modelled synchronously by running the Worker on that command — recording
the error if the Worker stops with `Stopped(Err)`. -/
def wake_and_wait (ps : PrunerState) (latest_version : Nat) (index : PrunerIndex) :
    PrunerState × Except String Unit :=
  match ps.stored_error with
  | some e => (ps, .error e)
  | none =>
    match prune_window ps.config index with
    | none => (ps, .ok ())
    | some w =>
      if latest_version - w ≤ ps.worker.progress.getD index.toIndex 0 then (ps, .ok ())
      else
        let cmd := Command.prune (combinedTargets ps.config ps.worker.progress latest_version)
        let r := WorkerState.work ps.worker [cmd] ps.oracle
        match r.2.2 with
        | .stoppedErr e =>
          ({ ps with worker := r.1, oracle := r.2.1, stored_error := some e }, .error e)
        | _ => ({ ps with worker := r.1, oracle := r.2.1 }, .ok ())

/-- The watermark after one atomic prune commit. -/
theorem pruneTo_watermark (s : StateStore) (W : Nat) :
    (s.pruneTo W).watermark = max s.watermark W := rfl

/-- Modelled from the spec: the externally observable states of a store are
the initial fully-committed store and everything obtained from it by atomic
pruning commits — each batch's deletions land together with its watermark
update, never separately (spec §4.3, §2 "crash consistency"). -/
inductive Reachable (ws0 : List Write) : StateStore → Prop
  | init : Reachable ws0 ⟨ws0, 0⟩
  | step (s : StateStore) (W : Nat) : Reachable ws0 s → Reachable ws0 (s.pruneTo W)

theorem Reachable.consistent (ws0 : List Write) (s : StateStore)
    (h : Reachable ws0 s) : Consistent ws0 s := by
  induction h with
  | init =>
    constructor
    · exact fun e he => he
    · exact fun e he _ => he
  | step s W _ ih => exact Consistent.pruneTo ws0 s W ih

/-- Collected behavior of one step-bounded run of the batch loop: progress
never moves backward, never overshoots `max progress target`, the store's
watermark tracks progress, consistency and reachability are preserved, and
with no injected fault the loop reports no error and — given a positive cap
and enough fuel — reaches its target exactly. -/
theorem pruneBatchesGo_props (cap t : Nat) :
    ∀ (fuel : Nat) (s : StateStore) (p : Nat) (o : List Bool),
    p ≤ (pruneBatchesGo cap fuel s p t o).progress ∧
    (pruneBatchesGo cap fuel s p t o).progress ≤ max p t ∧
    (s.watermark = p →
      (pruneBatchesGo cap fuel s p t o).store.watermark = (pruneBatchesGo cap fuel s p t o).progress) ∧
    (∀ ws0, Consistent ws0 s → Consistent ws0 (pruneBatchesGo cap fuel s p t o).store) ∧
    (∀ ws0, Reachable ws0 s → Reachable ws0 (pruneBatchesGo cap fuel s p t o).store) ∧
    (o = [] → (pruneBatchesGo cap fuel s p t o).err = none ∧
      (pruneBatchesGo cap fuel s p t o).oracle = [] ∧
      (0 < cap → t ≤ p + fuel → (pruneBatchesGo cap fuel s p t o).progress = max p t)) := by
  intro fuel
  induction fuel with
  | zero =>
    intro s p o
    refine ⟨le_refl _, le_max_left _ _, fun hwm => hwm, fun _ h => h, fun _ h => h, ?_⟩
    intro ho
    refine ⟨rfl, ho, ?_⟩
    intro hcap hfuel
    show p = max p t
    omega
  | succ fuel ih =>
    intro s p o
    have hdirect : ∀ (oo : List Bool), p ≤ (⟨s, p, oo, none⟩ : BatchResult).progress ∧
        (⟨s, p, oo, none⟩ : BatchResult).progress ≤ max p t ∧
        (s.watermark = p → (⟨s, p, oo, none⟩ : BatchResult).store.watermark =
          (⟨s, p, oo, none⟩ : BatchResult).progress) ∧
        (∀ ws0, Consistent ws0 s → Consistent ws0 (⟨s, p, oo, none⟩ : BatchResult).store) ∧
        (∀ ws0, Reachable ws0 s → Reachable ws0 (⟨s, p, oo, none⟩ : BatchResult).store) := by
      intro oo
      exact ⟨le_refl _, le_max_left _ _, fun hwm => hwm, fun _ h => h, fun _ h => h⟩
    cases o with
    | nil =>
      simp only [pruneBatchesGo]
      by_cases hc : p < t ∧ 0 < cap
      · rw [if_pos hc]
        obtain ⟨ih1, ih2, ih3, ih4, ih5, ih6⟩ := ih (s.pruneTo (min t (p + cap))) (min t (p + cap)) []
        refine ⟨?_, ?_, ?_, ?_, ?_, ?_⟩
        · have : p ≤ min t (p + cap) := by omega
          omega
        · have : min t (p + cap) ≤ t := by omega
          omega
        · intro hwm
          apply ih3
          rw [pruneTo_watermark, hwm]
          omega
        · intro ws0 hcon
          exact ih4 ws0 (Consistent.pruneTo ws0 s _ hcon)
        · intro ws0 hre
          exact ih5 ws0 (Reachable.step s _ hre)
        · intro _
          obtain ⟨j1, j2, j3⟩ := ih6 rfl
          refine ⟨j1, j2, ?_⟩
          intro hcap hfuel
          have := j3 hcap (by omega)
          omega
      · rw [if_neg hc]
        obtain ⟨d1, d2, d3, d4, d5⟩ := hdirect []
        refine ⟨d1, d2, d3, d4, d5, ?_⟩
        intro _
        refine ⟨rfl, rfl, ?_⟩
        intro hcap _
        have : ¬p < t := fun hlt => hc ⟨hlt, hcap⟩
        show p = max p t
        omega
    | cons b rest =>
      cases b with
      | false =>
        simp only [pruneBatchesGo]
        by_cases hc : p < t ∧ 0 < cap
        · rw [if_pos hc]
          refine ⟨le_refl _, le_max_left _ _, fun hwm => hwm, fun _ h => h, fun _ h => h, ?_⟩
          intro hcontra
          cases hcontra
        · rw [if_neg hc]
          obtain ⟨d1, d2, d3, d4, d5⟩ := hdirect (false :: rest)
          refine ⟨d1, d2, d3, d4, d5, ?_⟩
          intro hcontra
          cases hcontra
      | true =>
        simp only [pruneBatchesGo]
        by_cases hc : p < t ∧ 0 < cap
        · rw [if_pos hc]
          obtain ⟨ih1, ih2, ih3, ih4, ih5, _⟩ := ih (s.pruneTo (min t (p + cap))) (min t (p + cap)) rest
          refine ⟨?_, ?_, ?_, ?_, ?_, ?_⟩
          · have : p ≤ min t (p + cap) := by omega
            omega
          · have : min t (p + cap) ≤ t := by omega
            omega
          · intro hwm
            apply ih3
            rw [pruneTo_watermark, hwm]
            omega
          · intro ws0 hcon
            exact ih4 ws0 (Consistent.pruneTo ws0 s _ hcon)
          · intro ws0 hre
            exact ih5 ws0 (Reachable.step s _ hre)
          · intro hcontra
            cases hcontra
        · rw [if_neg hc]
          obtain ⟨d1, d2, d3, d4, d5⟩ := hdirect (true :: rest)
          refine ⟨d1, d2, d3, d4, d5, ?_⟩
          intro hcontra
          cases hcontra

/-- Collected behavior of one sub-pruner's batch loop: progress never moves
backward, never overshoots `max progress target`, the store's watermark
tracks progress, consistency and reachability are preserved, and with no
injected fault the loop reports no error and (with a positive cap) reaches
its target exactly. -/
theorem pruneBatches_props (cap : Nat) (s : StateStore) (p t : Nat) (o : List Bool) :
    p ≤ (pruneBatches cap s p t o).progress ∧
    (pruneBatches cap s p t o).progress ≤ max p t ∧
    (s.watermark = p →
      (pruneBatches cap s p t o).store.watermark = (pruneBatches cap s p t o).progress) ∧
    (∀ ws0, Consistent ws0 s → Consistent ws0 (pruneBatches cap s p t o).store) ∧
    (∀ ws0, Reachable ws0 s → Reachable ws0 (pruneBatches cap s p t o).store) ∧
    (o = [] → (pruneBatches cap s p t o).err = none ∧ (pruneBatches cap s p t o).oracle = [] ∧
      (0 < cap → (pruneBatches cap s p t o).progress = max p t)) := by
  obtain ⟨h1, h2, h3, h4, h5, h6⟩ := pruneBatchesGo_props cap t (t - p) s p o
  refine ⟨h1, h2, h3, h4, h5, ?_⟩
  intro ho
  obtain ⟨j1, j2, j3⟩ := h6 ho
  exact ⟨j1, j2, fun hcap => j3 hcap (by omega)⟩

theorem headD_eq_getD (ts : List Nat) : ts.headD 0 = ts.getD 0 0 := by
  cases ts <;> rfl

theorem tail_getD (ts : List Nat) (j : Nat) : ts.tail.getD j 0 = ts.getD (j + 1) 0 := by
  cases ts <;> rfl

theorem execPrune_length (cap : Nat) (pairs : List (StateStore × Nat)) (ts : List Nat)
    (o : List Bool) : (execPrune cap pairs ts o).pairs.length = pairs.length := by
  induction pairs generalizing ts o with
  | nil => rfl
  | cons sp rest ih =>
    simp only [execPrune]
    cases her : (pruneBatches cap sp.1 sp.2 (ts.headD 0) o).err with
    | some e => simp
    | none =>
      simp only [List.length_cons]
      rw [ih]

/-- Each sub-pruner's slot after a `Prune` command is either untouched or
the outcome of its own batch loop (run on some suffix of the commit
oracle) against its own target. -/
theorem execPrune_getD (cap : Nat) (pairs : List (StateStore × Nat)) (ts : List Nat)
    (o : List Bool) (j : Nat) (d : StateStore × Nat) :
    (∃ o', (execPrune cap pairs ts o).pairs.getD j d =
      ((pruneBatches cap (pairs.getD j d).1 (pairs.getD j d).2 (ts.getD j 0) o').store,
       (pruneBatches cap (pairs.getD j d).1 (pairs.getD j d).2 (ts.getD j 0) o').progress)) ∨
    (execPrune cap pairs ts o).pairs.getD j d = pairs.getD j d := by
  induction pairs generalizing ts o j with
  | nil => exact Or.inr rfl
  | cons sp rest ih =>
    simp only [execPrune]
    cases her : (pruneBatches cap sp.1 sp.2 (ts.headD 0) o).err with
    | some e =>
      cases j with
      | zero =>
        left
        refine ⟨o, ?_⟩
        simp only [List.getD_cons_zero]
        rw [headD_eq_getD] at her ⊢
      | succ j => exact Or.inr rfl
    | none =>
      cases j with
      | zero =>
        left
        refine ⟨o, ?_⟩
        simp only [List.getD_cons_zero]
        rw [headD_eq_getD]
      | succ j =>
        simp only [List.getD_cons_succ]
        rcases ih ts.tail (pruneBatches cap sp.1 sp.2 (ts.headD 0) o).oracle j with ⟨o', ho'⟩ | hunch
        · left
          refine ⟨o', ?_⟩
          rw [ho', tail_getD]
        · exact Or.inr hunch

/-- With an all-success commit oracle, a `Prune` command reports no error
and runs every sub-pruner's batch loop exactly. -/
theorem execPrune_nil_oracle (cap : Nat) (pairs : List (StateStore × Nat)) (ts : List Nat) :
    (execPrune cap pairs ts []).err = none ∧ (execPrune cap pairs ts []).oracle = [] ∧
    ∀ j d, j < pairs.length →
      (execPrune cap pairs ts []).pairs.getD j d =
        ((pruneBatches cap (pairs.getD j d).1 (pairs.getD j d).2 (ts.getD j 0) []).store,
         (pruneBatches cap (pairs.getD j d).1 (pairs.getD j d).2 (ts.getD j 0) []).progress) := by
  induction pairs generalizing ts with
  | nil =>
    refine ⟨rfl, rfl, ?_⟩
    intro j d hj
    simp at hj
  | cons sp rest ih =>
    have hprops := (pruneBatches_props cap sp.1 sp.2 (ts.headD 0) []).2.2.2.2.2 rfl
    simp only [execPrune]
    rw [hprops.1]
    obtain ⟨ih1, ih2, ih3⟩ := ih ts.tail
    rw [hprops.2.1]
    refine ⟨ih1, ih2, ?_⟩
    intro j d hj
    cases j with
    | zero =>
      simp only [List.getD_cons_zero]
      rw [headD_eq_getD]
    | succ j =>
      simp only [List.getD_cons_succ]
      rw [ih3 j d (by simpa using hj), tail_getD]

/-- `getD` through `zip` of equal-length lists. -/
theorem getD_zip (l1 : List StateStore) (l2 : List Nat) (j : Nat)
    (hlen : l1.length = l2.length) (hj : j < l2.length) :
    (l1.zip l2).getD j (⟨[], 0⟩, 0) = (l1.getD j ⟨[], 0⟩, l2.getD j 0) := by
  induction l1 generalizing l2 j with
  | nil =>
    exfalso
    rw [← hlen] at hj
    exact Nat.not_lt_zero j hj
  | cons s rest ih =>
    cases l2 with
    | nil => simp at hj
    | cons p l2rest =>
      cases j with
      | zero => rfl
      | succ j =>
        simp only [List.zip_cons_cons, List.getD_cons_succ]
        exact ih l2rest j (by simpa using hlen) (by simpa using hj)

/-- The Worker's `work` preserves the parallel lengths of the store list and
the progress table. -/
theorem work_lengths (cmds : List Command) (w : WorkerState) (o : List Bool)
    (hlen : w.stores.length = w.progress.length) :
    (WorkerState.work w cmds o).1.stores.length = (WorkerState.work w cmds o).1.progress.length ∧
    (WorkerState.work w cmds o).1.progress.length = w.progress.length := by
  induction cmds generalizing w o with
  | nil => exact ⟨hlen, rfl⟩
  | cons c rest ih =>
    cases c with
    | quit => exact ⟨hlen, rfl⟩
    | prune ts =>
      simp only [WorkerState.work]
      by_cases hq : rest.any Command.isQuit
      · rw [if_pos hq]
        exact ⟨hlen, rfl⟩
      · rw [if_neg hq]
        have hplen : (execPrune w.max_version_to_prune_per_batch (w.stores.zip w.progress) ts o).pairs.length
            = w.progress.length := by
          rw [execPrune_length, List.length_zip, hlen]
          omega
        cases her : (execPrune w.max_version_to_prune_per_batch (w.stores.zip w.progress) ts o).err with
        | some e =>
          constructor <;> simp [List.length_map, hplen]
        | none =>
          have := ih ⟨(execPrune w.max_version_to_prune_per_batch (w.stores.zip w.progress) ts o).pairs.map Prod.fst,
            (execPrune w.max_version_to_prune_per_batch (w.stores.zip w.progress) ts o).pairs.map Prod.snd,
            w.max_version_to_prune_per_batch⟩
            (execPrune w.max_version_to_prune_per_batch (w.stores.zip w.progress) ts o).oracle
            (by simp)
          refine ⟨this.1, ?_⟩
          rw [this.2]
          simp [List.length_map, hplen]

/-- Over any run of the Worker, every progress-table entry is monotonically
non-decreasing. -/
theorem work_progress_mono (cmds : List Command) (w : WorkerState) (o : List Bool) (j : Nat)
    (hlen : w.stores.length = w.progress.length) :
    w.progress.getD j 0 ≤ (WorkerState.work w cmds o).1.progress.getD j 0 := by
  induction cmds generalizing w o with
  | nil => exact le_refl _
  | cons c rest ih =>
    cases c with
    | quit => exact le_refl _
    | prune ts =>
      simp only [WorkerState.work]
      by_cases hq : rest.any Command.isQuit
      · rw [if_pos hq]
      · rw [if_neg hq]
        have hstep : ∀ (oo : List Bool), w.progress.getD j 0 ≤
            ((execPrune w.max_version_to_prune_per_batch (w.stores.zip w.progress) ts oo).pairs.map
              Prod.snd).getD j 0 := by
          intro oo
          by_cases hj : j < w.progress.length
          · have hd : ((execPrune w.max_version_to_prune_per_batch (w.stores.zip w.progress) ts oo).pairs.map
                Prod.snd).getD j 0 =
                ((execPrune w.max_version_to_prune_per_batch (w.stores.zip w.progress) ts oo).pairs.getD j
                  (⟨[], 0⟩, 0)).2 := by
              exact List.getD_map _ ((⟨[], 0⟩ : StateStore), 0) Prod.snd
            rw [hd]
            have hz := getD_zip w.stores w.progress j hlen hj
            rcases execPrune_getD w.max_version_to_prune_per_batch (w.stores.zip w.progress) ts oo j
                (⟨[], 0⟩, 0) with ⟨o', ho'⟩ | hunch
            · rw [ho', hz]
              exact (pruneBatches_props _ _ _ _ _).1
            · rw [hunch, hz]
          · have : w.progress.getD j 0 = 0 := List.getD_eq_default _ _ (by omega)
            rw [this]
            exact Nat.zero_le _
        cases her : (execPrune w.max_version_to_prune_per_batch (w.stores.zip w.progress) ts o).err with
        | some e => exact hstep o
        | none =>
          refine le_trans (hstep o) ?_
          exact ih ⟨(execPrune w.max_version_to_prune_per_batch (w.stores.zip w.progress) ts o).pairs.map Prod.fst,
            (execPrune w.max_version_to_prune_per_batch (w.stores.zip w.progress) ts o).pairs.map Prod.snd,
            w.max_version_to_prune_per_batch⟩
            (execPrune w.max_version_to_prune_per_batch (w.stores.zip w.progress) ts o).oracle (by simp)

/-- Over any run of the Worker whose `Prune` targets are all bounded by `L`
and whose progress table starts bounded by `L`, every progress-table entry
stays bounded by `L`. -/
theorem work_progress_le (cmds : List Command) (w : WorkerState) (o : List Bool) (L : Nat)
    (hlen : w.stores.length = w.progress.length)
    (hc : ∀ ts, Command.prune ts ∈ cmds → ∀ j, ts.getD j 0 ≤ L)
    (hp : ∀ j, w.progress.getD j 0 ≤ L) :
    ∀ j, (WorkerState.work w cmds o).1.progress.getD j 0 ≤ L := by
  induction cmds generalizing w o with
  | nil => exact hp
  | cons c rest ih =>
    cases c with
    | quit => exact hp
    | prune ts =>
      simp only [WorkerState.work]
      by_cases hq : rest.any Command.isQuit
      · rw [if_pos hq]
        exact hp
      · rw [if_neg hq]
        have hts : ∀ j, ts.getD j 0 ≤ L := hc ts (List.mem_cons_self _ _)
        have hstep : ∀ (oo : List Bool) (j : Nat),
            ((execPrune w.max_version_to_prune_per_batch (w.stores.zip w.progress) ts oo).pairs.map
              Prod.snd).getD j 0 ≤ L := by
          intro oo j
          by_cases hj : j < w.progress.length
          · have hd : ((execPrune w.max_version_to_prune_per_batch (w.stores.zip w.progress) ts oo).pairs.map
                Prod.snd).getD j 0 =
                ((execPrune w.max_version_to_prune_per_batch (w.stores.zip w.progress) ts oo).pairs.getD j
                  (⟨[], 0⟩, 0)).2 := List.getD_map _ ((⟨[], 0⟩ : StateStore), 0) Prod.snd
            rw [hd]
            have hz := getD_zip w.stores w.progress j hlen hj
            rcases execPrune_getD w.max_version_to_prune_per_batch (w.stores.zip w.progress) ts oo j
                (⟨[], 0⟩, 0) with ⟨o', ho'⟩ | hunch
            · rw [ho', hz]
              have hb := (pruneBatches_props w.max_version_to_prune_per_batch
                (w.stores.getD j ⟨[], 0⟩) (w.progress.getD j 0) (ts.getD j 0) o').2.1
              have h1 := hp j
              have h2 := hts j
              show (pruneBatches w.max_version_to_prune_per_batch (w.stores.getD j ⟨[], 0⟩)
                (w.progress.getD j 0) (ts.getD j 0) o').progress ≤ L
              omega
            · rw [hunch, hz]
              exact hp j
          · have hlen2 : ((execPrune w.max_version_to_prune_per_batch (w.stores.zip w.progress) ts oo).pairs.map
                Prod.snd).length = (w.stores.zip w.progress).length := by
              rw [List.length_map, execPrune_length]
            have : ((execPrune w.max_version_to_prune_per_batch (w.stores.zip w.progress) ts oo).pairs.map
                Prod.snd).getD j 0 = 0 := by
              apply List.getD_eq_default
              rw [hlen2, List.length_zip]
              omega
            rw [this]
            exact Nat.zero_le _
        cases her : (execPrune w.max_version_to_prune_per_batch (w.stores.zip w.progress) ts o).err with
        | some e => exact hstep o
        | none =>
          refine ih ⟨(execPrune w.max_version_to_prune_per_batch (w.stores.zip w.progress) ts o).pairs.map Prod.fst,
            (execPrune w.max_version_to_prune_per_batch (w.stores.zip w.progress) ts o).pairs.map Prod.snd,
            w.max_version_to_prune_per_batch⟩
            (execPrune w.max_version_to_prune_per_batch (w.stores.zip w.progress) ts o).oracle (by simp)
            (fun ts' hts' => hc ts' (List.mem_cons_of_mem _ hts')) (hstep o)

/-- Reads against a consistent pruned store: everything strictly below the
watermark errors, everything at or above it returns the value the full
committed history assigns. -/
theorem get_of_consistent (ws0 : List Write) (s : StateStore) (hwf : WF ws0)
    (hcon : Consistent ws0 s) :
    (∀ k v, v < s.watermark → s.get k v = none) ∧
    (∀ k v, s.watermark ≤ v → s.get k v = some ((latestWrite k v ws0).map Prod.snd)) := by
  constructor
  · intro k v hv
    simp [StateStore.get, hv]
  · intro k v hv
    simp only [StateStore.get, if_neg (Nat.not_lt.mpr hv)]
    rw [latestWrite_consistent ws0 s hwf hcon k v hv]

/-- Running the Worker on a single `Prune` command with an all-success
oracle: it executes the command and goes back to (blocking) reception. -/
theorem work_single_prune_nil (w : WorkerState) (ts : List Nat) :
    WorkerState.work w [Command.prune ts] [] =
      (⟨(execPrune w.max_version_to_prune_per_batch (w.stores.zip w.progress) ts []).pairs.map Prod.fst,
        (execPrune w.max_version_to_prune_per_batch (w.stores.zip w.progress) ts []).pairs.map Prod.snd,
        w.max_version_to_prune_per_batch⟩, [], .running) := by
  have hn := execPrune_nil_oracle w.max_version_to_prune_per_batch (w.stores.zip w.progress) ts
  simp only [WorkerState.work, List.any_nil, Bool.false_eq_true, if_false, hn.1]
  rw [hn.2.1]

/-- The per-index outcome of one `Prune` command with an all-success
oracle, read back positionally from the updated Worker state. -/
theorem execPrune_nil_at (w : WorkerState) (ts : List Nat) (j : Nat)
    (hlen : w.stores.length = w.progress.length) (hj : j < w.progress.length) :
    ((execPrune w.max_version_to_prune_per_batch (w.stores.zip w.progress) ts []).pairs.map
      Prod.fst).getD j ⟨[], 0⟩ =
      (pruneBatches w.max_version_to_prune_per_batch (w.stores.getD j ⟨[], 0⟩)
        (w.progress.getD j 0) (ts.getD j 0) []).store ∧
    ((execPrune w.max_version_to_prune_per_batch (w.stores.zip w.progress) ts []).pairs.map
      Prod.snd).getD j 0 =
      (pruneBatches w.max_version_to_prune_per_batch (w.stores.getD j ⟨[], 0⟩)
        (w.progress.getD j 0) (ts.getD j 0) []).progress := by
  have hjz : j < (w.stores.zip w.progress).length := by
    rw [List.length_zip]
    omega
  have h3 := (execPrune_nil_oracle w.max_version_to_prune_per_batch (w.stores.zip w.progress) ts).2.2
    j ((⟨[], 0⟩ : StateStore), 0) hjz
  have hz := getD_zip w.stores w.progress j hlen hj
  rw [hz] at h3
  constructor
  · have hm : ((execPrune w.max_version_to_prune_per_batch (w.stores.zip w.progress) ts []).pairs.map
        Prod.fst).getD j ⟨[], 0⟩ =
        ((execPrune w.max_version_to_prune_per_batch (w.stores.zip w.progress) ts []).pairs.getD j
          ((⟨[], 0⟩ : StateStore), 0)).1 := List.getD_map _ ((⟨[], 0⟩ : StateStore), 0) Prod.fst
    rw [hm, h3]
  · have hm : ((execPrune w.max_version_to_prune_per_batch (w.stores.zip w.progress) ts []).pairs.map
        Prod.snd).getD j 0 =
        ((execPrune w.max_version_to_prune_per_batch (w.stores.zip w.progress) ts []).pairs.getD j
          ((⟨[], 0⟩ : StateStore), 0)).2 := List.getD_map _ ((⟨[], 0⟩ : StateStore), 0) Prod.snd
    rw [hm, h3]

/-- Every target the front door puts into a combined `Prune` command is
bounded by the latest committed version (windows only subtract; a disabled
window re-uses current progress, itself assumed bounded). -/
theorem combinedTargets_le (cfg : StoragePrunerConfig) (progress : List Nat) (latest : Nat)
    (hp : ∀ j, progress.getD j 0 ≤ latest) :
    ∀ j, (combinedTargets cfg progress latest).getD j 0 ≤ latest := by
  intro j
  have hcase : ∀ (i : PrunerIndex),
      (match prune_window cfg i with
        | none => progress.getD i.toIndex 0
        | some w => latest - w) ≤ latest := by
    intro i
    cases prune_window cfg i with
    | none => exact hp i.toIndex
    | some w =>
      show latest - w ≤ latest
      omega
  match j with
  | 0 => exact hcase .LedgerPruner
  | 1 => exact hcase .TransactionStorePruner
  | 2 => exact hcase .EventStorePruner
  | 3 => exact hcase .StateStorePruner
  | n + 4 =>
    have : (combinedTargets cfg progress latest).getD (n + 4) 0 = 0 := by
      apply List.getD_eq_default
      simp [combinedTargets, allPrunerIndices]
    rw [this]
    exact Nat.zero_le _

/-- The key and the three values the tests commit at versions 0, 1, 2
(test.rs lines 47–51 and 136–140, via `put_value_set`). -/
def testWrites : List Write :=
  [(0, "test_key1", "test_val1"), (1, "test_key1", "test_val2"), (2, "test_key1", "test_val3")]

/-- The state store holding the three committed versions, nothing pruned. -/
def testStore : StateStore := ⟨testWrites, 0⟩

/-- The progress table `vec![0, 0]` passed to `Worker::new` in
`test_worker_quit_eagerly` (test.rs line 174). -/
def test_progress_table : List Nat := [0, 0]

/-- `target_db_versions: vec![1, 0, 0, 0, 0]` of the first queued `Prune`
(test.rs line 179). -/
def test_prune_targets1 : List Nat := [1, 0, 0, 0, 0]

/-- `target_db_versions: vec![2, 0, 0, 0, 0]` of the second queued `Prune`
(test.rs line 184). -/
def test_prune_targets2 : List Nat := [2, 0, 0, 0, 0]

/-- The Worker of `test_worker_quit_eagerly`: the state store with three
committed versions, the `vec![0, 0]` progress table, per-batch cap 100. -/
def test_worker : WorkerState := ⟨[testStore, ⟨[], 0⟩], test_progress_table, 100⟩

/-- The command queue of `test_worker_quit_eagerly`: two `Prune` commands,
then `Quit`, all enqueued before the Worker runs (test.rs lines 177–187). -/
def test_quit_commands : List Command :=
  [.prune test_prune_targets1, .prune test_prune_targets2, .quit]

/-- C1: if the Worker's queue already holds `Prune` commands followed by a
`Quit` before it processes any of them, running the Worker applies none of
the queued `Prune` commands and stops in `Stopped(Ok)`; in the scenario of
`test_worker_quit_eagerly` — versions 0, 1, 2 of one key committed and
`Prune{target=1}`, `Prune{target=2}`, `Quit` queued — the Worker state is
unchanged and all three versions remain readable with their original
values. -/
theorem claim_C1 (w : WorkerState) (o : List Bool) (pruneCmds : List Command)
    (hp : ∀ c ∈ pruneCmds, c.isQuit = false) :
    WorkerState.work w (pruneCmds ++ [Command.quit]) o = (w, o, .stoppedOk) ∧
    (WorkerState.work test_worker test_quit_commands [] = (test_worker, [], .stoppedOk) ∧
     ((WorkerState.work test_worker test_quit_commands []).1.stores.getD 0 ⟨[], 0⟩).get
        "test_key1" 0 = some (some "test_val1") ∧
     ((WorkerState.work test_worker test_quit_commands []).1.stores.getD 0 ⟨[], 0⟩).get
        "test_key1" 1 = some (some "test_val2") ∧
     ((WorkerState.work test_worker test_quit_commands []).1.stores.getD 0 ⟨[], 0⟩).get
        "test_key1" 2 = some (some "test_val3")) := by
  constructor
  · cases pruneCmds with
    | nil => rfl
    | cons c cs =>
      cases c with
      | quit =>
        have := hp Command.quit (List.mem_cons_self _ _)
        simp [Command.isQuit] at this
      | prune ts =>
        simp only [List.cons_append, WorkerState.work]
        rw [if_pos]
        simp [List.any_append, Command.isQuit]
  · exact ⟨by decide, by decide, by decide, by decide⟩

/-- Witness for C1: the hypotheses hold at the concrete queue of
`test_worker_quit_eagerly`, and the theorem applies to it. -/
theorem claim_C1_witness :
    (∀ c ∈ ([Command.prune test_prune_targets1, Command.prune test_prune_targets2] : List Command),
      c.isQuit = false) ∧
    WorkerState.work test_worker
      ([Command.prune test_prune_targets1, Command.prune test_prune_targets2] ++ [Command.quit])
      [] = (test_worker, [], .stoppedOk) :=
  ⟨by decide, (claim_C1 test_worker []
    [Command.prune test_prune_targets1, Command.prune test_prune_targets2] (by decide)).1⟩

/-- The front door of `test_state_store_pruner`: windows 0, cap 100 (the
`StoragePrunerConfig` of test.rs lines 60–64), with the state store carrying
the three committed versions at its spec ordinal and untouched stores for
the other three sub-pruners. -/
def test_pruner : PrunerState :=
  ⟨⟨some 0, some 0, some 100⟩,
   ⟨[⟨[], 0⟩, ⟨[], 0⟩, ⟨[], 0⟩, testStore], [0, 0, 0, 0], 100⟩, [], none⟩

/-- C2: after `wake_and_wait(V, i)` returns `Ok`, every version strictly
below `progress[i]` is unreadable and every version at or above
`progress[i]` reads its original value from the committed history; with a
positive batch cap the new `progress[i]` is exactly
`max (old progress) (V - window)`.  Instantiated by the witness to the
`test_state_store_pruner` scenario: window 0, cap 100, versions 0, 1, 2
committed, `wake_and_wait(1, StateStorePruner)` makes version 0 unreadable
while versions 1 and 2 keep their original values. -/
theorem claim_C2 (ps : PrunerState) (ws0 : List Write) (latest : Nat) (i : PrunerIndex)
    (w : Nat)
    (hwf : WF ws0) (herr : ps.stored_error = none) (horacle : ps.oracle = [])
    (hlen : ps.worker.stores.length = ps.worker.progress.length)
    (hj : i.toIndex < ps.worker.progress.length)
    (hcap : 0 < ps.worker.max_version_to_prune_per_batch)
    (hwin : prune_window ps.config i = some w)
    (hcon : Consistent ws0 (ps.worker.stores.getD i.toIndex ⟨[], 0⟩))
    (hwm : (ps.worker.stores.getD i.toIndex ⟨[], 0⟩).watermark =
      ps.worker.progress.getD i.toIndex 0) :
    (wake_and_wait ps latest i).2 = Except.ok () ∧
    (wake_and_wait ps latest i).1.worker.progress.getD i.toIndex 0 =
      max (ps.worker.progress.getD i.toIndex 0) (latest - w) ∧
    (∀ k v, v < (wake_and_wait ps latest i).1.worker.progress.getD i.toIndex 0 →
      ((wake_and_wait ps latest i).1.worker.stores.getD i.toIndex ⟨[], 0⟩).get k v = none) ∧
    (∀ k v, (wake_and_wait ps latest i).1.worker.progress.getD i.toIndex 0 ≤ v →
      ((wake_and_wait ps latest i).1.worker.stores.getD i.toIndex ⟨[], 0⟩).get k v =
        some ((latestWrite k v ws0).map Prod.snd)) := by
  by_cases hle : latest - w ≤ ps.worker.progress.getD i.toIndex 0
  · have heq : wake_and_wait ps latest i = (ps, .ok ()) := by
      simp only [wake_and_wait, herr, hwin]
      rw [if_pos hle]
    rw [heq]
    have hget := get_of_consistent ws0 _ hwf hcon
    refine ⟨rfl, ?_, ?_, ?_⟩
    · show ps.worker.progress.getD i.toIndex 0 =
        max (ps.worker.progress.getD i.toIndex 0) (latest - w)
      omega
    · intro k v hv
      have hv2 : v < ps.worker.progress.getD i.toIndex 0 := hv
      show (ps.worker.stores.getD i.toIndex ⟨[], 0⟩).get k v = none
      apply hget.1
      rw [hwm]
      exact hv2
    · intro k v hv
      have hv2 : ps.worker.progress.getD i.toIndex 0 ≤ v := hv
      show (ps.worker.stores.getD i.toIndex ⟨[], 0⟩).get k v =
        some ((latestWrite k v ws0).map Prod.snd)
      apply hget.2
      rw [hwm]
      exact hv2
  · have hwork := work_single_prune_nil ps.worker
      (combinedTargets ps.config ps.worker.progress latest)
    have heq : wake_and_wait ps latest i =
        ({ps with
          worker := ⟨(execPrune ps.worker.max_version_to_prune_per_batch
              (ps.worker.stores.zip ps.worker.progress)
              (combinedTargets ps.config ps.worker.progress latest) []).pairs.map Prod.fst,
            (execPrune ps.worker.max_version_to_prune_per_batch
              (ps.worker.stores.zip ps.worker.progress)
              (combinedTargets ps.config ps.worker.progress latest) []).pairs.map Prod.snd,
            ps.worker.max_version_to_prune_per_batch⟩,
          oracle := []}, .ok ()) := by
      simp only [wake_and_wait, herr, hwin, horacle]
      rw [if_neg hle]
      simp only [hwork]
    rw [heq]
    have hat := execPrune_nil_at ps.worker
      (combinedTargets ps.config ps.worker.progress latest) i.toIndex hlen hj
    have htgt : (combinedTargets ps.config ps.worker.progress latest).getD i.toIndex 0 =
        latest - w := by
      have hall : ∀ (idx : PrunerIndex),
          (combinedTargets ps.config ps.worker.progress latest).getD idx.toIndex 0 =
            match prune_window ps.config idx with
            | none => ps.worker.progress.getD idx.toIndex 0
            | some ww => latest - ww := by
        intro idx
        cases idx <;> rfl
      rw [hall i, hwin]
    have hprops := pruneBatches_props ps.worker.max_version_to_prune_per_batch
      (ps.worker.stores.getD i.toIndex ⟨[], 0⟩) (ps.worker.progress.getD i.toIndex 0)
      ((combinedTargets ps.config ps.worker.progress latest).getD i.toIndex 0) []
    obtain ⟨hp1, hp2, hp3, hp4, hp5, hp6⟩ := hprops
    obtain ⟨_, _, hreach⟩ := hp6 rfl
    have hprog := hreach hcap
    have hcon2 := hp4 ws0 hcon
    have hwm2 := hp3 hwm
    have hget := get_of_consistent ws0 _ hwf hcon2
    refine ⟨rfl, ?_, ?_, ?_⟩
    · show ((execPrune ps.worker.max_version_to_prune_per_batch
          (ps.worker.stores.zip ps.worker.progress)
          (combinedTargets ps.config ps.worker.progress latest) []).pairs.map Prod.snd).getD
            i.toIndex 0 = _
      rw [hat.2, hprog, htgt]
    · intro k v hv
      show (((execPrune ps.worker.max_version_to_prune_per_batch
          (ps.worker.stores.zip ps.worker.progress)
          (combinedTargets ps.config ps.worker.progress latest) []).pairs.map Prod.fst).getD
            i.toIndex ⟨[], 0⟩).get k v = none
      rw [hat.1]
      apply hget.1
      have hv2 : v < ((execPrune ps.worker.max_version_to_prune_per_batch
          (ps.worker.stores.zip ps.worker.progress)
          (combinedTargets ps.config ps.worker.progress latest) []).pairs.map Prod.snd).getD
            i.toIndex 0 := hv
      rw [hat.2] at hv2
      omega
    · intro k v hv
      show (((execPrune ps.worker.max_version_to_prune_per_batch
          (ps.worker.stores.zip ps.worker.progress)
          (combinedTargets ps.config ps.worker.progress latest) []).pairs.map Prod.fst).getD
            i.toIndex ⟨[], 0⟩).get k v = _
      rw [hat.1]
      apply hget.2
      have hv2 : ((execPrune ps.worker.max_version_to_prune_per_batch
          (ps.worker.stores.zip ps.worker.progress)
          (combinedTargets ps.config ps.worker.progress latest) []).pairs.map Prod.snd).getD
            i.toIndex 0 ≤ v := hv
      rw [hat.2] at hv2
      omega

/-- Witness for C2: the `test_state_store_pruner` step at latest version 1 —
after `wake_and_wait(1, StateStorePruner)` version 0 is unreadable while
versions 1 and 2 read their original values. -/
theorem claim_C2_witness :
    WF testWrites ∧
    (wake_and_wait test_pruner 1 .StateStorePruner).2 = Except.ok () ∧
    ((wake_and_wait test_pruner 1 .StateStorePruner).1.worker.stores.getD 3 ⟨[], 0⟩).get
      "test_key1" 0 = none ∧
    ((wake_and_wait test_pruner 1 .StateStorePruner).1.worker.stores.getD 3 ⟨[], 0⟩).get
      "test_key1" 1 = some (some "test_val2") ∧
    ((wake_and_wait test_pruner 1 .StateStorePruner).1.worker.stores.getD 3 ⟨[], 0⟩).get
      "test_key1" 2 = some (some "test_val3") := by
  have h := claim_C2 test_pruner testWrites 1 .StateStorePruner 0 (by decide) rfl rfl rfl
    (by decide) (by decide) rfl (by decide) rfl
  refine ⟨by decide, h.1, ?_, ?_, ?_⟩
  · exact h.2.2.1 "test_key1" 0 (by decide)
  · have h4 := h.2.2.2 "test_key1" 1 (by decide)
    exact h4.trans (by decide)
  · have h4 := h.2.2.2 "test_key1" 2 (by decide)
    exact h4.trans (by decide)

/-- C3: for every command sequence processed by the Worker and every
`PrunerIndex`, the progress-table entry never decreases (this holds from
every starting state, hence at every point of the table's lifetime), and —
whenever every queued target and every starting entry is bounded by the
latest committed version `L`, as the front door guarantees — it never
exceeds `L`. -/
theorem claim_C3 (w : WorkerState) (cmds : List Command) (o : List Bool) (i : PrunerIndex)
    (L : Nat) (hlen : w.stores.length = w.progress.length) :
    w.progress.getD i.toIndex 0 ≤
      (WorkerState.work w cmds o).1.progress.getD i.toIndex 0 ∧
    ((∀ ts, Command.prune ts ∈ cmds → ∀ j, ts.getD j 0 ≤ L) →
      (∀ j, w.progress.getD j 0 ≤ L) →
      (WorkerState.work w cmds o).1.progress.getD i.toIndex 0 ≤ L) ∧
    ((∀ j, w.progress.getD j 0 ≤ L) →
      ∀ cfg j, (combinedTargets cfg w.progress L).getD j 0 ≤ L) :=
  ⟨work_progress_mono cmds w o i.toIndex hlen,
   fun hc hp => work_progress_le cmds w o L hlen hc hp i.toIndex,
   fun hp cfg j => combinedTargets_le cfg w.progress L hp j⟩

/-- Witness for C3: the `test_worker_quit_eagerly` Worker with the
scenario's own command queue, bounded by latest committed version 2. -/
theorem getD_le_of_all (l : List Nat) (L : Nat) (h : ∀ x ∈ l, x ≤ L) :
    ∀ j, l.getD j 0 ≤ L := by
  intro j
  by_cases hj : j < l.length
  · rw [List.getD_eq_getElem l 0 hj]
    exact h _ (l.getElem_mem hj)
  · rw [List.getD_eq_default l 0 (by omega)]
    exact Nat.zero_le _

theorem claim_C3_witness :
    test_worker.stores.length = test_worker.progress.length ∧
    test_worker.progress.getD 3 0 ≤
      (WorkerState.work test_worker test_quit_commands []).1.progress.getD 3 0 ∧
    (WorkerState.work test_worker test_quit_commands []).1.progress.getD 3 0 ≤ 2 := by
  have h := claim_C3 test_worker test_quit_commands [] .StateStorePruner 2 rfl
  refine ⟨rfl, h.1, h.2.1 ?_ (getD_le_of_all _ _ (by decide))⟩
  intro ts hts
  simp only [test_quit_commands, List.mem_cons] at hts
  rcases hts with h1 | h1 | h1
  · injection h1 with h2
    subst h2
    exact getD_le_of_all _ _ (by decide)
  · injection h1 with h2
    subst h2
    exact getD_le_of_all _ _ (by decide)
  · simp at h1

/-- C4: every externally observable store state — the committed history and
anything reached from it through atomic prune commits, each batch's
deletions landing in one transition with its watermark update — satisfies
the retained-range invariant: below the watermark every read of every key
errors (the version is fully absent), at or above it every read of every
key returns exactly what the committed history assigns (fully queryable,
never partially deleted); and the Worker's batch loop only moves a store
between such states. -/
theorem claim_C4 (ws0 : List Write) (s : StateStore) (hwf : WF ws0)
    (hre : Reachable ws0 s) :
    (∀ cap p t o, Reachable ws0 (pruneBatches cap s p t o).store) ∧
    (∀ k v, v < s.watermark → s.get k v = none) ∧
    (∀ k v, s.watermark ≤ v → s.get k v = some ((latestWrite k v ws0).map Prod.snd)) := by
  have hget := get_of_consistent ws0 s hwf (Reachable.consistent ws0 s hre)
  exact ⟨fun cap p t o => (pruneBatches_props cap s p t o).2.2.2.2.1 ws0 hre, hget.1, hget.2⟩

/-- Witness for C4: the committed test history pruned in one atomic batch
to watermark 1 — version 0 fully absent, versions 1 and 2 fully readable. -/
theorem claim_C4_witness :
    WF testWrites ∧
    (testStore.pruneTo 1).get "test_key1" 0 = none ∧
    (testStore.pruneTo 1).get "test_key1" 1 =
      some ((latestWrite "test_key1" 1 testWrites).map Prod.snd) := by
  have h := claim_C4 testWrites (testStore.pruneTo 1) (by decide)
    (Reachable.step testStore 1 Reachable.init)
  exact ⟨by decide, h.2.1 "test_key1" 0 (by decide), h.2.2 "test_key1" 1 (by decide)⟩

/-- C5: the state-store pruner never deletes the value current as of the
retained frontier: pruning to a new watermark `W` changes no read at any
retained version `v ≥ W` — even when the value visible there was written
before the old watermark — and every write it removes was fully superseded
before `W`. -/
theorem claim_C5 (s : StateStore) (W : Nat) (hwf : WF s.writes)
    (hwm : s.watermark ≤ W) :
    (∀ k v, W ≤ v → (s.pruneTo W).get k v = s.get k v) ∧
    (∀ e ∈ s.writes, e ∉ (s.pruneTo W).writes → staleBefore s.writes e W = true) := by
  constructor
  · intro k v hv
    have hcon0 : Consistent s.writes s := ⟨fun e he => he, fun e he _ => he⟩
    have hcon := Consistent.pruneTo s.writes s W hcon0
    have hwmp : (s.pruneTo W).watermark = W := by
      rw [pruneTo_watermark]
      omega
    have h1 : (s.pruneTo W).get k v =
        some ((latestWrite k v s.writes).map Prod.snd) := by
      simp only [StateStore.get, hwmp, if_neg (Nat.not_lt.mpr hv)]
      rw [latestWrite_consistent s.writes (s.pruneTo W) hwf hcon k v (by omega)]
    have h2 : s.get k v = some ((latestWrite k v s.writes).map Prod.snd) := by
      simp only [StateStore.get]
      rw [if_neg (by omega : ¬v < s.watermark)]
    rw [h1, h2]
  · intro e he hnot
    by_contra hcontra
    have hfalse : staleBefore s.writes e W = false := by
      revert hcontra
      cases staleBefore s.writes e W <;> simp
    exact hnot (List.mem_filter.mpr ⟨he, by rw [hfalse]; rfl⟩)

/-- Witness for C5: pruning the test history to watermark 2 removes the
superseded writes of versions 0 and 1 yet leaves the read at retained
version 2 unchanged; the removed version-0 write was indeed stale. -/
theorem claim_C5_witness :
    WF testStore.writes ∧ testStore.watermark ≤ 2 ∧
    (testStore.pruneTo 2).get "test_key1" 2 = testStore.get "test_key1" 2 ∧
    staleBefore testStore.writes (0, "test_key1", "test_val1") 2 = true := by
  have h := claim_C5 testStore 2 (by decide) (by decide)
  refine ⟨by decide, by decide, h.1 "test_key1" 2 (by decide), ?_⟩
  exact h.2 (0, "test_key1", "test_val1") (by decide) (by decide)

/-- C6: `wake_and_wait(latest_version, index)` computes the target as the
saturating subtraction `latest_version - window[index]` (`Nat` subtraction
truncates at 0, i.e. `max 0 (latest - window)`); a disabled (`None`) window
is a no-op, a target at or below the current `progress[index]` returns `Ok`
immediately with nothing changed — so a target below current progress never
prunes backward; and in the scenario with window 0,
`wake_and_wait(0, StateStorePruner)` leaves version 0 readable with its
original value. -/
theorem claim_C6 (ps : PrunerState) (latest_version : Nat) (index : PrunerIndex)
    (herr : ps.stored_error = none) :
    (prune_window ps.config index = none →
      wake_and_wait ps latest_version index = (ps, .ok ())) ∧
    (∀ w, prune_window ps.config index = some w →
      latest_version - w ≤ ps.worker.progress.getD index.toIndex 0 →
      wake_and_wait ps latest_version index = (ps, .ok ())) ∧
    (wake_and_wait test_pruner 0 .StateStorePruner = (test_pruner, .ok ()) ∧
     ((wake_and_wait test_pruner 0 .StateStorePruner).1.worker.stores.getD 3 ⟨[], 0⟩).get
        "test_key1" 0 = some (some "test_val1")) := by
  refine ⟨?_, ?_, rfl, by decide⟩
  · intro hwin
    simp only [wake_and_wait, herr, hwin]
  · intro w hwin hle
    simp only [wake_and_wait, herr, hwin]
    rw [if_pos hle]

/-- Witness for C6: a disabled default window is a no-op for the ledger
pruner, and in the window-0 scenario `wake_and_wait(0, StateStorePruner)`
changes nothing and leaves version 0 readable. -/
theorem claim_C6_witness :
    test_pruner.stored_error = none ∧
    wake_and_wait test_pruner 0 .StateStorePruner = (test_pruner, .ok ()) ∧
    wake_and_wait ⟨⟨some 0, none, some 100⟩, test_pruner.worker, [], none⟩ 2 .LedgerPruner =
      (⟨⟨some 0, none, some 100⟩, test_pruner.worker, [], none⟩, .ok ()) := by
  refine ⟨rfl, (claim_C6 test_pruner 0 .StateStorePruner rfl).2.2.1, ?_⟩
  exact (claim_C6 ⟨⟨some 0, none, some 100⟩, test_pruner.worker, [], none⟩ 2
    .LedgerPruner rfl).1 rfl

/-- The front-door state used to exercise the failure path: window 0 for
the state store, the other windows disabled, and a commit oracle whose
first batch commit fails. -/
def test_pruner_fault : PrunerState :=
  ⟨⟨some 0, none, some 100⟩,
   ⟨[⟨[], 0⟩, ⟨[], 0⟩, ⟨[], 0⟩, testStore], [0, 0, 0, 0], 100⟩, [false], none⟩

/-- C7: a persistence error while committing a batch aborts only the
current `Prune` command — the Worker stops as `Stopped(Err)` with exactly
the state the failed command left behind, the error is recorded in the
front door — and afterwards every `wake_and_wait` call, for any latest
version and any index, changes nothing (no retry) and returns the stored
error, until a fresh `PrunerState` is constructed. -/
theorem claim_C7 (ps : PrunerState) (latest_version : Nat) (index : PrunerIndex) :
    (∀ w e w' o', ps.stored_error = none →
      prune_window ps.config index = some w →
      ¬(latest_version - w ≤ ps.worker.progress.getD index.toIndex 0) →
      WorkerState.work ps.worker
        [Command.prune (combinedTargets ps.config ps.worker.progress latest_version)]
        ps.oracle = (w', o', .stoppedErr e) →
      wake_and_wait ps latest_version index =
        ({ps with worker := w', oracle := o', stored_error := some e}, .error e)) ∧
    (∀ e, ps.stored_error = some e →
      wake_and_wait ps latest_version index = (ps, .error e)) := by
  constructor
  · intro w e w' o' herr hwin hgt hwork
    simp only [wake_and_wait, herr, hwin]
    rw [if_neg hgt]
    simp only [hwork]
  · intro e herr
    simp only [wake_and_wait, herr]

/-- The front-door state after the failed command: error recorded, Worker
state exactly as the failed command left it. -/
def test_pruner_errored : PrunerState :=
  { test_pruner_fault with
    oracle := [],
    stored_error := some "persistence error while committing batch" }

/-- Witness for C7: with the first batch commit failing, the
`wake_and_wait(1, StateStorePruner)` call records the error, leaves the
Worker exactly as the failed command left it, and a later call for a
different index returns the same stored error without changing anything. -/
theorem claim_C7_witness :
    WorkerState.work test_pruner_fault.worker
      [Command.prune
        (combinedTargets test_pruner_fault.config test_pruner_fault.worker.progress 1)]
      test_pruner_fault.oracle =
      (test_pruner_fault.worker, [],
        .stoppedErr "persistence error while committing batch") ∧
    wake_and_wait test_pruner_fault 1 .StateStorePruner =
      (test_pruner_errored, .error "persistence error while committing batch") ∧
    wake_and_wait test_pruner_errored 2 .LedgerPruner =
      (test_pruner_errored, .error "persistence error while committing batch") := by
  refine ⟨by decide, ?_, ?_⟩
  · have h := (claim_C7 test_pruner_fault 1 .StateStorePruner).1 0
      "persistence error while committing batch" test_pruner_fault.worker [] rfl rfl
      (by decide) (by decide)
    exact h.trans (by rfl)
  · exact (claim_C7 test_pruner_errored 2 .LedgerPruner).2
      "persistence error while committing batch" (by rfl)

/-- The number of variants of the spec's `PrunerIndex` enumeration. -/
def numPrunerIndices : Nat := allPrunerIndices.length

/-- C8 counterexample: in the repository's own test the `Prune` command
carries five target versions while the Worker's progress table holds two
entries — so the two vectors cannot both contain exactly one entry per
`PrunerIndex` variant (whatever the enumeration's size), and neither
matches the spec's four-variant enumeration. -/
theorem claim_C8_counterexample :
    ¬(test_prune_targets1.length = numPrunerIndices ∧
      test_progress_table.length = numPrunerIndices) ∧
    test_prune_targets1.length ≠ test_progress_table.length := by
  decide

/-- C8 (amended): `target_db_versions` and the progress table are plain
version vectors indexed positionally by `PrunerIndex` ordinal; their
lengths are not tied to the enumeration — the test runs the Worker with a
2-entry progress table and 5-entry target vectors and it processes the
queue normally, stopping in `Stopped(Ok)`. -/
theorem claim_C8_amended :
    numPrunerIndices = 4 ∧
    test_prune_targets1.length = 5 ∧
    test_prune_targets2.length = 5 ∧
    test_progress_table.length = 2 ∧
    (WorkerState.work test_worker test_quit_commands []).2.2 = WorkerStatus.stoppedOk := by
  decide

/-- The `StoragePrunerConfig` literal the test constructs (test.rs lines
60–64). -/
def test_config : StoragePrunerConfig := ⟨some 0, some 0, some 100⟩

/-- The fields of `StoragePrunerConfig` as the test's constructor exhibits
them: field name paired with whether the field's type is an `Option`. -/
def storagePrunerConfigFields : List (String × Bool) :=
  [("state_store_prune_window", true), ("default_prune_window", true),
   ("max_version_to_prune_per_batch", true)]

/-- The field list claim C9 asserts for `StoragePrunerConfig`. -/
def claimC9Fields : List (String × Bool) :=
  [("state_store_prune_window", true), ("default_prune_window", true),
   ("max_versions_per_batch", false)]

/-- C9 counterexample: the configuration's third field is
`max_version_to_prune_per_batch : Option<u64>` (the test passes
`Some(100)`), not `max_versions_per_batch : u64`. -/
theorem claim_C9_counterexample : storagePrunerConfigFields ≠ claimC9Fields := by
  decide

/-- C9 (amended): `StoragePrunerConfig` consists of exactly
`state_store_prune_window : Option<u64>`, `default_prune_window :
Option<u64>` and `max_version_to_prune_per_batch : Option<u64>`; the test
instantiates them as `Some(0)`, `Some(0)`, `Some(100)`, and a `None`
window value disables pruning for the corresponding store
(`wake_and_wait` is a no-op for it). -/
theorem claim_C9_amended :
    storagePrunerConfigFields =
      [("state_store_prune_window", true), ("default_prune_window", true),
       ("max_version_to_prune_per_batch", true)] ∧
    test_config = ⟨some 0, some 0, some 100⟩ ∧
    (∀ i : PrunerIndex, prune_window ⟨none, none, some 100⟩ i = none) ∧
    wake_and_wait ⟨⟨none, none, some 100⟩, test_worker, [], none⟩ 5 .StateStorePruner =
      (⟨⟨none, none, some 100⟩, test_worker, [], none⟩, .ok ()) := by
  refine ⟨by decide, by decide, ?_, by rfl⟩
  intro i
  cases i <;> rfl

end Pruner

namespace AptosVM

/-- The gas-schedule constants `check_gas` reads
(`self.get_gas_schedule(..).gas_constants`; field names kept from the
source).  All are `u64` quantities; `check_gas` only compares them, so
`Nat` carries them faithfully. -/
structure GasConstants where
  max_transaction_size_in_bytes : Nat
  maximum_number_of_gas_units : Nat
  min_price_per_gas_unit : Nat
  max_price_per_gas_unit : Nat
deriving Repr, DecidableEq

/-- The status codes produced along `check_gas`'s paths, including the
`VM_STARTUP_FAILURE` that `get_gas_schedule` raises when the on-chain
config is absent (aptos_vm_impl.rs lines 138–147). -/
inductive StatusCode
  | EXCEEDED_MAX_TRANSACTION_SIZE
  | MAX_GAS_UNITS_EXCEEDS_MAX_GAS_UNITS_BOUND
  | MAX_GAS_UNITS_BELOW_MIN_TRANSACTION_GAS_UNITS
  | GAS_UNIT_PRICE_BELOW_MIN_BOUND
  | GAS_UNIT_PRICE_ABOVE_MAX_BOUND
  | VM_STARTUP_FAILURE
deriving Repr, DecidableEq

/-- Embedded from aptos_vm_impl.rs lines 157–238, `AptosVMImpl::check_gas`.
`gas_schedule` is the VM's on-chain gas schedule (`None` makes
`get_gas_schedule(..)?` fail with `VM_STARTUP_FAILURE`).  The arguments
`transaction_size`, `max_gas_amount` and `gas_unit_price` are the fields
of `TransactionMetadata` the function reads.  `min_txn_fee` stands for
`gas_constants.to_external_units(calculate_intrinsic_gas(raw_bytes_len,
gas_constants))` (line 197–198), whose definition lives outside the given
sources; the checks compare it only by magnitude. -/
def check_gas (gas_schedule : Option GasConstants)
    (transaction_size max_gas_amount gas_unit_price min_txn_fee : Nat) :
    Except StatusCode Unit :=
  match gas_schedule with
  | none => .error .VM_STARTUP_FAILURE
  | some gas_constants =>
    if transaction_size > gas_constants.max_transaction_size_in_bytes then
      .error .EXCEEDED_MAX_TRANSACTION_SIZE
    else if max_gas_amount > gas_constants.maximum_number_of_gas_units then
      .error .MAX_GAS_UNITS_EXCEEDS_MAX_GAS_UNITS_BOUND
    else if max_gas_amount < min_txn_fee then
      .error .MAX_GAS_UNITS_BELOW_MIN_TRANSACTION_GAS_UNITS
    else if gas_unit_price < gas_constants.min_price_per_gas_unit then
      .error .GAS_UNIT_PRICE_BELOW_MIN_BOUND
    else if gas_unit_price > gas_constants.max_price_per_gas_unit then
      .error .GAS_UNIT_PRICE_ABOVE_MAX_BOUND
    else .ok ()

/-- C10: given the VM's gas schedule, `check_gas` returns `Ok` iff the
transaction size is within `max_transaction_size_in_bytes`, the submitted
max gas amount is at most `maximum_number_of_gas_units` and at least the
intrinsic fee for the transaction size, and the gas unit price lies within
`[min_price_per_gas_unit, max_price_per_gas_unit]`; and the first violated
bound, checked in exactly that order, determines the error status. -/
theorem claim_C10 (gc : GasConstants)
    (transaction_size max_gas_amount gas_unit_price min_txn_fee : Nat) :
    (check_gas (some gc) transaction_size max_gas_amount gas_unit_price min_txn_fee =
        .ok () ↔
      (transaction_size ≤ gc.max_transaction_size_in_bytes ∧
       max_gas_amount ≤ gc.maximum_number_of_gas_units ∧
       min_txn_fee ≤ max_gas_amount ∧
       gc.min_price_per_gas_unit ≤ gas_unit_price ∧
       gas_unit_price ≤ gc.max_price_per_gas_unit)) ∧
    (transaction_size > gc.max_transaction_size_in_bytes →
      check_gas (some gc) transaction_size max_gas_amount gas_unit_price min_txn_fee =
        .error .EXCEEDED_MAX_TRANSACTION_SIZE) ∧
    (transaction_size ≤ gc.max_transaction_size_in_bytes →
      max_gas_amount > gc.maximum_number_of_gas_units →
      check_gas (some gc) transaction_size max_gas_amount gas_unit_price min_txn_fee =
        .error .MAX_GAS_UNITS_EXCEEDS_MAX_GAS_UNITS_BOUND) ∧
    (transaction_size ≤ gc.max_transaction_size_in_bytes →
      max_gas_amount ≤ gc.maximum_number_of_gas_units →
      max_gas_amount < min_txn_fee →
      check_gas (some gc) transaction_size max_gas_amount gas_unit_price min_txn_fee =
        .error .MAX_GAS_UNITS_BELOW_MIN_TRANSACTION_GAS_UNITS) ∧
    (transaction_size ≤ gc.max_transaction_size_in_bytes →
      max_gas_amount ≤ gc.maximum_number_of_gas_units →
      min_txn_fee ≤ max_gas_amount →
      gas_unit_price < gc.min_price_per_gas_unit →
      check_gas (some gc) transaction_size max_gas_amount gas_unit_price min_txn_fee =
        .error .GAS_UNIT_PRICE_BELOW_MIN_BOUND) ∧
    (transaction_size ≤ gc.max_transaction_size_in_bytes →
      max_gas_amount ≤ gc.maximum_number_of_gas_units →
      min_txn_fee ≤ max_gas_amount →
      gc.min_price_per_gas_unit ≤ gas_unit_price →
      gas_unit_price > gc.max_price_per_gas_unit →
      check_gas (some gc) transaction_size max_gas_amount gas_unit_price min_txn_fee =
        .error .GAS_UNIT_PRICE_ABOVE_MAX_BOUND) := by
  simp only [check_gas]
  refine ⟨?_, ?_, ?_, ?_, ?_, ?_⟩
  · split_ifs with h1 h2 h3 h4 h5 <;> simp <;> omega
  · intro h1
    split_ifs <;> first | rfl | omega
  · intro h1 h2
    split_ifs <;> first | rfl | omega
  · intro h1 h2 h3
    split_ifs <;> first | rfl | omega
  · intro h1 h2 h3 h4
    split_ifs <;> first | rfl | omega
  · intro h1 h2 h3 h4 h5
    split_ifs <;> first | rfl | omega

/-- Witness for C10: with bounds 10 bytes / 100 units / price in [1, 5]
and intrinsic fee 10, a 5-byte transaction offering 50 units at price 2
passes, an 11-byte one is rejected as `EXCEEDED_MAX_TRANSACTION_SIZE`, and
one offering 5 units (below the fee) is rejected as
`MAX_GAS_UNITS_BELOW_MIN_TRANSACTION_GAS_UNITS`. -/
theorem claim_C10_witness :
    check_gas (some ⟨10, 100, 1, 5⟩) 5 50 2 10 = .ok () ∧
    check_gas (some ⟨10, 100, 1, 5⟩) 11 50 2 10 = .error .EXCEEDED_MAX_TRANSACTION_SIZE ∧
    check_gas (some ⟨10, 100, 1, 5⟩) 5 5 2 10 =
      .error .MAX_GAS_UNITS_BELOW_MIN_TRANSACTION_GAS_UNITS :=
  ⟨(claim_C10 ⟨10, 100, 1, 5⟩ 5 50 2 10).1.mpr (by decide),
   (claim_C10 ⟨10, 100, 1, 5⟩ 11 50 2 10).2.1 (by decide),
   (claim_C10 ⟨10, 100, 1, 5⟩ 5 5 2 10).2.2.2.1 (by decide) (by decide) (by decide)⟩

end AptosVM
